import Mathlib

/-!
Verification of the bigram language classifier in `src/main.rs` (crk-or-eng).

The Rust source is shallowly embedded below:
* `Token`, `Digraph`, `Language`, `Occurance` mirror the Rust types of the same names.
* The `HashMap<Digraph, Occurance>` feature table is modelled as a finite key set
  together with a total value function; `Classifier.featuresGet` is `features.get`.
* `f64` arithmetic is modelled by exact real arithmetic (`ℝ`, `Real.log` for `f64::ln`).
* Fallible operations (`Option` in Rust, the `assert!` in `fmt::Display`) are
  modelled with `Option`.
-/

namespace CrkOrEng

/-- Rust `enum Token { Start, End, Char(char) }` from src/main.rs. -/
inductive Token where
  | Start : Token
  | End : Token
  | Char : Char → Token
deriving DecidableEq, Repr

/-- Rust `struct Digraph(Token, Token)`. -/
structure Digraph where
  fst : Token
  snd : Token
deriving DecidableEq, Repr

/-- Rust `enum Language { Crk, Eng }`. -/
inductive Language where
  | Crk : Language
  | Eng : Language
deriving DecidableEq, Repr

/-- Rust `struct Occurance { crk: u32, eng: u32 }` (counters; overflow is irrelevant
to the claims considered, so `u32` is modelled by `ℕ`). -/
structure Occurance where
  crk : ℕ
  eng : ℕ
deriving DecidableEq, Repr

/-- Rust `Occurance::total`: `self.crk + self.eng`. -/
def Occurance.total (o : Occurance) : ℕ := o.crk + o.eng

/-- Rust `Occurance::of`: select the counter for the given language. -/
def Occurance.of (o : Occurance) (language : Language) : ℕ :=
  match language with
  | Language.Crk => o.crk
  | Language.Eng => o.eng

/-- Rust `struct Classifier { features: HashMap<Digraph, Occurance> }`.
The hash map is modelled as its key set plus a value function: an entry
`(d, occ d)` exists exactly for `d ∈ keys`. -/
structure Classifier where
  keys : Finset Digraph
  occ : Digraph → Occurance

/-- Rust `self.features.get(&d)`: `Some` of the stored occurrence when `d` is a key. -/
def Classifier.featuresGet (m : Classifier) (d : Digraph) : Option Occurance :=
  if d ∈ m.keys then some (m.occ d) else none

/-- Rust `Classifier::num_features`: `self.features.len()`. -/
def Classifier.num_features (m : Classifier) : ℕ := m.keys.card

/-- Rust `Classifier::new()`: empty feature table. -/
def Classifier.new : Classifier :=
  { keys := ∅, occ := fun _ => { crk := 0, eng := 0 } }

/-- The trailing characters stripped by `line_to_word`: the closure
`|c| "!? \n".contains(c)`. -/
def stripSet : List Char := ['!', '?', ' ', '\n']

/-- Rust `str::trim_right_matches` with a character predicate: removes matching
characters from the END of the string only. -/
def trimRightMatches (s : List Char) : List Char :=
  (s.reverse.dropWhile (fun c => c ∈ stripSet)).reverse

/-- Model of the Rust standard library `char::to_lowercase` (an external library
routine, not repository code): full Unicode lowercasing maps a character to a
sequence of one or more characters.  Modelled here on the repertoire this program
exercises: ASCII capitals, the capital circumflex vowels, and the dotted capital I
(`U+0130`), whose Unicode lowercase is the two code points `i` followed by the
combining dot above `U+0307`.  Characters outside this repertoire lowercase to
themselves. -/
def charToLowercase (c : Char) : List Char :=
  if c = 'İ' then ['i', '\u0307']
  else if c = 'Â' then ['â']
  else if c = 'Ê' then ['ê']
  else if c = 'Î' then ['î']
  else if c = 'Ô' then ['ô']
  else if 'A' ≤ c ∧ c ≤ 'Z' then [Char.ofNat (c.toNat + 32)]
  else [c]

/-- The `match` in `line_to_word` replacing the circumflex vowels. -/
def foldCircumflex (c : Char) : Char :=
  match c with
  | 'â' => 'a'
  | 'ê' => 'e'
  | 'î' => 'i'
  | 'ô' => 'o'
  | _ => c

/-- Rust `line_to_word`: trim `!`, `?`, space and newline from the right end,
then for each remaining character take the FIRST code point of its lowercase
expansion (`ch.to_lowercase().nth(0).unwrap()`; the expansion is never empty, so
the `headD` default is dead code standing in for the impossible `unwrap` failure)
and fold circumflex vowels to their plain forms. -/
def line_to_word (line : List Char) : List Char :=
  (trimRightMatches line).map (fun ch => foldCircumflex ((charToLowercase ch).headD ch))

/-- The sequence of digraphs the loop body of `digraphs_of` inserts, given the
current `last_char` token: one digraph per character, then `(last_char, End)`. -/
def digraphList : Token → List Char → List Digraph
  | last, [] => [Digraph.mk last Token.End]
  | last, ch :: rest => Digraph.mk last (Token.Char ch) :: digraphList (Token.Char ch) rest

/-- Rust `digraphs_of`: the empty set for the empty word, otherwise the SET of
digraphs produced by scanning the word with `last_char` initialised to `Start`. -/
def digraphs_of (text : List Char) : Finset Digraph :=
  if text = [] then ∅ else (digraphList Token.Start text).toFinset

/-- The `match lang` in `count_digraphs_in_file` incrementing one counter. -/
def bump (language : Language) (o : Occurance) : Occurance :=
  match language with
  | Language.Crk => { o with crk := o.crk + 1 }
  | Language.Eng => { o with eng := o.eng + 1 }

/-- The per-line body of `Classifier::count_digraphs_in_file`: every digraph of
the word gets its entry created if absent (`or_insert` with zero counts) and the
counter for `language` incremented by one.  Since `digraphs_of` is a set, each
digraph is processed exactly once, giving this pointwise form. -/
def trainWord (m : Classifier) (language : Language) (word : List Char) : Classifier :=
  { keys := m.keys ∪ digraphs_of word,
    occ := fun d =>
      if d ∈ digraphs_of word then bump language (m.occ d) else m.occ d }

/-- Rust `Classifier::count_digraphs_in_file`, with the file replaced by its list
of lines (the file handle is external I/O): each line is normalised by
`line_to_word` and counted via `trainWord`. -/
def count_digraphs (m : Classifier) (lines : List (List Char)) (language : Language) :
    Classifier :=
  lines.foldl (fun acc line => trainWord acc language (line_to_word line)) m

/-- Rust `Classifier::prune_features`: `self.features.retain(|_, occ| occ.total() > 1)`.
Keys are filtered; stored values are untouched. -/
def prune_features (m : Classifier) : Classifier :=
  { keys := m.keys.filter (fun d => 1 < (m.occ d).total), occ := m.occ }

/-- The value inside the `Some` of `Classifier::log_prob`:
`numerator.ln() - denominator.ln()` with `numerator = of(language) + 1` and
`denominator = total() + num_features()`. -/
noncomputable def logProbVal (m : Classifier) (d : Digraph) (language : Language) : ℝ :=
  Real.log (((m.occ d).of language + 1 : ℕ)) -
    Real.log (((m.occ d).total + m.num_features : ℕ))

/-- Rust `Classifier::log_prob`: `Some(num.ln() - den.ln())` when the digraph is a
key of the feature table, `None` otherwise. -/
noncomputable def log_prob (m : Classifier) (d : Digraph) (language : Language) :
    Option ℝ :=
  match m.featuresGet d with
  | some _ => some (logProbVal m d language)
  | none => none

/-- The running-sum loop of `Classifier::classify` for one language, iterating the
digraphs in the list order `ds`: start from `0.0`, skip digraphs that are not keys
of the feature table, and add the (`expect`-unwrapped) `log_prob` of the rest. -/
noncomputable def sumVia (m : Classifier) (language : Language) (ds : List Digraph) : ℝ :=
  ds.foldl (fun acc d => if d ∈ m.keys then acc + logProbVal m d language else acc) 0

/-- The decision of `Classifier::classify` once the two sums are accumulated over
the iteration order `ds`: `Crk` when its sum is strictly greater, else `Eng`. -/
noncomputable def classifyVia (m : Classifier) (ds : List Digraph) : Language :=
  if sumVia m Language.Crk ds > sumVia m Language.Eng ds then Language.Crk
  else Language.Eng

/-- Rust `Classifier::classify`: accumulate over the digraph set of the word (in
some enumeration of the `HashSet`) and compare. -/
noncomputable def classify (m : Classifier) (word : List Char) : Language :=
  classifyVia m (digraphs_of word).toList

/-- Rust `impl fmt::Display for Token`: `Start` renders as `'^'`, `End` as `'$'`,
and a literal character passes through the check `assert!(c != '^' || c != '$')`;
`none` models the panic of a failed assertion. -/
def tokenDisplay (t : Token) : Option Char :=
  match t with
  | Token.Start => some '^'
  | Token.End => some '$'
  | Token.Char c => if c ≠ '^' ∨ c ≠ '$' then some c else none

/-! Concrete values used by the witness theorems. -/

/-- The digraph (a, b). -/
def dAB : Digraph := Digraph.mk (Token.Char 'a') (Token.Char 'b')

/-- The digraph (x, y). -/
def dXY : Digraph := Digraph.mk (Token.Char 'x') (Token.Char 'y')

/-- A one-entry feature table: the digraph (a, b) with counts crk = 2, eng = 0. -/
def exampleCls : Classifier :=
  { keys := {dAB},
    occ := fun d => if d = dAB then { crk := 2, eng := 0 } else { crk := 0, eng := 0 } }

/-- A two-entry feature table: (a, b) with total 2 and (x, y) with total 1. -/
def pruneCls : Classifier :=
  { keys := {dAB, dXY},
    occ := fun d => if d = dAB then { crk := 2, eng := 0 } else { crk := 1, eng := 0 } }

/-! Helper lemmas. -/

/-- Looking up a key of the table succeeds with the stored occurrence. -/
theorem log_prob_of_mem (m : Classifier) (d : Digraph) (language : Language)
    (h : d ∈ m.keys) : log_prob m d language = some (logProbVal m d language) := by
  simp [log_prob, Classifier.featuresGet, h]

/-- Looking up a non-key returns `none`. -/
theorem log_prob_of_not_mem (m : Classifier) (d : Digraph) (language : Language)
    (h : d ∉ m.keys) : log_prob m d language = none := by
  simp [log_prob, Classifier.featuresGet, h]

/-- The accumulator form of the classification loop: folding from `a` adds the
per-digraph contributions, where a non-key contributes `0`. -/
theorem sumVia_foldl (m : Classifier) (language : Language) :
    ∀ (ds : List Digraph) (a : ℝ),
      ds.foldl (fun acc d => if d ∈ m.keys then acc + logProbVal m d language else acc) a
        = a + (ds.map (fun d => if d ∈ m.keys then logProbVal m d language else 0)).sum
  | [], a => by simp
  | d :: ds, a => by
      simp only [List.foldl_cons, List.map_cons, List.sum_cons, sumVia_foldl m language ds]
      by_cases h : d ∈ m.keys
      · simp only [if_pos h]; ring
      · simp only [if_neg h]; ring

/-- The running sum is the sum of the per-digraph contributions. -/
theorem sumVia_eq (m : Classifier) (language : Language) (ds : List Digraph) :
    sumVia m language ds
      = (ds.map (fun d => if d ∈ m.keys then logProbVal m d language else 0)).sum := by
  unfold sumVia
  rw [sumVia_foldl, zero_add]

/-- The running sum over an enumeration of a digraph set equals the finite sum of
`log_prob` values over the digraphs of the set that are keys of the table. -/
theorem sumVia_toList (m : Classifier) (language : Language) (s : Finset Digraph) :
    sumVia m language s.toList
      = ∑ d ∈ s.filter (fun d => d ∈ m.keys), logProbVal m d language := by
  rw [sumVia_eq, Finset.sum_to_list, Finset.sum_filter]

/-- The running sum does not depend on the iteration order. -/
theorem sumVia_perm (m : Classifier) (language : Language) {ds₁ ds₂ : List Digraph}
    (h : ds₁.Perm ds₂) : sumVia m language ds₁ = sumVia m language ds₂ := by
  rw [sumVia_eq, sumVia_eq]
  exact (h.map _).sum_eq

/-- With an empty feature table both running sums stay at `0`. -/
theorem sumVia_new (language : Language) (ds : List Digraph) :
    sumVia Classifier.new language ds = 0 := by
  rw [sumVia_eq]
  simp [Classifier.new]

/-- Every scan of a word ends with a digraph whose second component is `End`. -/
theorem exists_end_digraph (t : Token) (w : List Char) :
    ∃ t2 : Token, Digraph.mk t2 Token.End ∈ digraphList t w := by
  induction w generalizing t with
  | nil => exact ⟨t, by simp [digraphList]⟩
  | cons c rest ih =>
      obtain ⟨t2, ht2⟩ := ih (Token.Char c)
      exact ⟨t2, by simp [digraphList, ht2]⟩

/-- A word of length `n` is scanned into exactly `n + 1` digraphs (as a list). -/
theorem digraphList_length (t : Token) (w : List Char) :
    (digraphList t w).length = w.length + 1 := by
  induction w generalizing t with
  | nil => simp [digraphList]
  | cons c rest ih => simp [digraphList, ih (Token.Char c)]

/-! Claim theorems. -/

/-- C1: for every digraph that is a key of the Feature Table and every language,
`log_prob` returns `some (ln ((c + 1) / (t + F)))` where `c` is the count for the
language, `t` the occurrence total and `F` the number of keys of the table; for a
digraph that is not a key it returns `none`. -/
theorem c1_log_prob_formula (m : Classifier) (d : Digraph) (language : Language) :
    (d ∈ m.keys →
      log_prob m d language =
        some (Real.log ((((m.occ d).of language : ℝ) + 1) /
          (((m.occ d).total : ℝ) + (m.num_features : ℝ))))) ∧
    (d ∉ m.keys → log_prob m d language = none) := by
  constructor
  · intro h
    rw [log_prob_of_mem m d language h]
    have hF : 0 < m.num_features := Finset.card_pos.mpr ⟨d, h⟩
    have hnum : (((m.occ d).of language : ℝ) + 1) ≠ 0 := by positivity
    have hden : (((m.occ d).total : ℝ) + (m.num_features : ℝ)) ≠ 0 := by
      have : (0 : ℝ) < (m.num_features : ℝ) := by exact_mod_cast hF
      positivity
    rw [Real.log_div hnum hden]
    unfold logProbVal
    push_cast
    ring_nf
  · exact log_prob_of_not_mem m d language

/-- C1 witness: in the concrete table `exampleCls` the digraph (a, b) is a key
with counts crk = 2, eng = 0, total 2 and one feature, and `log_prob` evaluates to
the smoothed formula; the non-key (x, y) yields `none`. -/
theorem c1_log_prob_formula_witness :
    (exampleCls.occ dAB).of Language.Crk = 2 ∧
    (exampleCls.occ dAB).total = 2 ∧
    exampleCls.num_features = 1 ∧
    log_prob exampleCls dAB Language.Crk =
      some (Real.log ((((exampleCls.occ dAB).of Language.Crk : ℝ) + 1) /
        (((exampleCls.occ dAB).total : ℝ) + (exampleCls.num_features : ℝ)))) ∧
    log_prob exampleCls dXY Language.Crk = none :=
  ⟨by decide, by decide, by decide,
    (c1_log_prob_formula exampleCls dAB Language.Crk).1 (by decide),
    (c1_log_prob_formula exampleCls dXY Language.Crk).2 (by decide)⟩

/-- C2: `classify` accumulates, for each language, the sum of `log_prob` values
over the digraphs of the word that are keys of the Feature Table (both sums
starting from `0`), returns `Crk` exactly when its sum is strictly greater than
English's, and returns `Eng` otherwise — in particular on exact ties. -/
theorem c2_classify_decision (m : Classifier) (w : List Char) :
    (∀ language, sumVia m language (digraphs_of w).toList
      = ∑ d ∈ (digraphs_of w).filter (fun d => d ∈ m.keys), logProbVal m d language) ∧
    (classify m w = Language.Crk ↔
      sumVia m Language.Eng (digraphs_of w).toList
        < sumVia m Language.Crk (digraphs_of w).toList) ∧
    (classify m w = Language.Eng ↔
      ¬ sumVia m Language.Eng (digraphs_of w).toList
        < sumVia m Language.Crk (digraphs_of w).toList) ∧
    (sumVia m Language.Crk (digraphs_of w).toList
        = sumVia m Language.Eng (digraphs_of w).toList →
      classify m w = Language.Eng) := by
  refine ⟨fun language => sumVia_toList m language (digraphs_of w), ?_, ?_, ?_⟩
  · unfold classify classifyVia
    split
    · simp only [true_iff]; assumption
    · simp only [iff_false, reduceCtorEq, false_iff]
      · intro hlt
        exact absurd hlt (by assumption)
  · unfold classify classifyVia
    split
    · simp only [reduceCtorEq, false_iff, not_not]
      assumption
    · simp only [true_iff]
      assumption
  · intro htie
    unfold classify classifyVia
    rw [if_neg]
    rw [htie]
    exact lt_irrefl _

/-- C2 witness: with the empty feature table of `Classifier.new` both running
sums for the word "puppy" are `0`, an exact tie, and `classify` returns `Eng`. -/
theorem c2_classify_decision_witness :
    sumVia Classifier.new Language.Crk (digraphs_of ['p', 'u', 'p', 'p', 'y']).toList
      = sumVia Classifier.new Language.Eng (digraphs_of ['p', 'u', 'p', 'p', 'y']).toList ∧
    classify Classifier.new ['p', 'u', 'p', 'p', 'y'] = Language.Eng := by
  have htie : sumVia Classifier.new Language.Crk
        (digraphs_of ['p', 'u', 'p', 'p', 'y']).toList
      = sumVia Classifier.new Language.Eng
        (digraphs_of ['p', 'u', 'p', 'p', 'y']).toList := by
    rw [sumVia_new, sumVia_new]
  exact ⟨htie,
    (c2_classify_decision Classifier.new ['p', 'u', 'p', 'p', 'y']).2.2.2 htie⟩

/-- C3: pruning keeps exactly the entries with occurrence total at least 2 and
removes exactly those with total at most 1; it adds no entry, leaves the stored
occurrence of every surviving entry unchanged, and in particular an entry with
total exactly 1 is absent afterwards. -/
theorem c3_prune_characterization (m : Classifier) (d : Digraph) :
    (d ∈ (prune_features m).keys ↔ d ∈ m.keys ∧ 2 ≤ (m.occ d).total) ∧
    (prune_features m).keys ⊆ m.keys ∧
    (d ∈ (prune_features m).keys →
      (prune_features m).featuresGet d = m.featuresGet d) ∧
    ((m.occ d).total = 1 → d ∉ (prune_features m).keys) := by
  have hmem : d ∈ (prune_features m).keys ↔ d ∈ m.keys ∧ 2 ≤ (m.occ d).total := by
    unfold prune_features
    rw [Finset.mem_filter]
    constructor
    · rintro ⟨h1, h2⟩
      exact ⟨h1, by omega⟩
    · rintro ⟨h1, h2⟩
      exact ⟨h1, by simpa using h2⟩
  refine ⟨hmem, ?_, ?_, ?_⟩
  · intro x hx
    exact Finset.mem_of_mem_filter x hx
  · intro h
    have hm : d ∈ m.keys := (hmem.mp h).1
    have h2 : d ∈ Finset.filter (fun d => 1 < (m.occ d).total) m.keys := h
    unfold Classifier.featuresGet prune_features
    simp only [if_pos h2, if_pos hm]
  · intro h1 hcontra
    have := (hmem.mp hcontra).2
    omega

/-- C3 witness: in `pruneCls` the digraph (a, b) has total 2 and survives pruning
with its stored occurrence unchanged, while (x, y) has total 1 and is removed. -/
theorem c3_prune_characterization_witness :
    dAB ∈ (prune_features pruneCls).keys ∧
    (prune_features pruneCls).featuresGet dAB = pruneCls.featuresGet dAB ∧
    dXY ∉ (prune_features pruneCls).keys := by
  have hmem : dAB ∈ (prune_features pruneCls).keys :=
    (c3_prune_characterization pruneCls dAB).1.mpr ⟨by decide, by decide⟩
  exact ⟨hmem,
    (c3_prune_characterization pruneCls dAB).2.2.1 hmem,
    (c3_prune_characterization pruneCls dXY).2.2.2 (by decide)⟩

/-- C4: the number of digraphs of a word `w` is `0` exactly when `w` is empty;
for a nonempty `w` it lies between `2` and `len w + 1`, reaching `len w + 1`
exactly when the scan of `w` repeats no digraph; and a one-character word yields
exactly the two digraphs `(Start, c)` and `(c, End)`. -/
theorem c4_digraph_count (w : List Char) :
    ((digraphs_of w).card = 0 ↔ w = []) ∧
    (w ≠ [] → 2 ≤ (digraphs_of w).card ∧ (digraphs_of w).card ≤ w.length + 1) ∧
    (w ≠ [] →
      ((digraphs_of w).card = w.length + 1 ↔ (digraphList Token.Start w).Nodup)) ∧
    (∀ c : Char, w = [c] →
      digraphs_of w
        = {Digraph.mk Token.Start (Token.Char c), Digraph.mk (Token.Char c) Token.End}) := by
  refine ⟨?_, ?_, ?_, ?_⟩
  · constructor
    · intro hcard
      by_contra hne
      obtain ⟨c, rest, rfl⟩ := List.exists_cons_of_ne_nil hne
      have hmem : Digraph.mk Token.Start (Token.Char c)
          ∈ digraphs_of (c :: rest) := by
        unfold digraphs_of
        rw [if_neg (by simp)]
        simp [digraphList]
      exact Finset.card_ne_zero_of_mem hmem hcard
    · intro h
      subst h
      simp [digraphs_of]
  · intro hne
    obtain ⟨c, rest, rfl⟩ := List.exists_cons_of_ne_nil hne
    have hset : digraphs_of (c :: rest)
        = (digraphList Token.Start (c :: rest)).toFinset := by
      unfold digraphs_of
      rw [if_neg (by simp)]
    constructor
    · have hhead : Digraph.mk Token.Start (Token.Char c)
          ∈ digraphs_of (c :: rest) := by
        rw [hset]
        simp [digraphList]
      obtain ⟨t2, ht2⟩ := exists_end_digraph (Token.Char c) rest
      have hlast : Digraph.mk t2 Token.End ∈ digraphs_of (c :: rest) := by
        rw [hset]
        rw [List.mem_toFinset]
        simp [digraphList, ht2]
      have hne2 : Digraph.mk Token.Start (Token.Char c) ≠ Digraph.mk t2 Token.End := by
        intro heq
        have := congrArg Digraph.snd heq
        simp at this
      exact Finset.one_lt_card.mpr
        ⟨Digraph.mk Token.Start (Token.Char c), hhead,
          Digraph.mk t2 Token.End, hlast, hne2⟩
    · rw [hset]
      calc (digraphList Token.Start (c :: rest)).toFinset.card
          ≤ (digraphList Token.Start (c :: rest)).length := List.toFinset_card_le _
        _ = (c :: rest).length + 1 := digraphList_length _ _
  · intro hne
    have hset : digraphs_of w = (digraphList Token.Start w).toFinset := by
      unfold digraphs_of
      rw [if_neg hne]
    rw [hset]
    constructor
    · intro hcard
      have hlen : (digraphList Token.Start w).toFinset.card
          = (digraphList Token.Start w).length := by
        rw [hcard, digraphList_length]
      rw [List.card_toFinset] at hlen
      have hsub : (digraphList Token.Start w).dedup.Sublist (digraphList Token.Start w) :=
        List.dedup_sublist _
      have heq := hsub.eq_of_length hlen
      rw [← heq]
      exact List.nodup_dedup _
    · intro hnd
      rw [List.toFinset_card_of_nodup hnd, digraphList_length]
  · intro c hc
    subst hc
    unfold digraphs_of
    rw [if_neg (by simp)]
    simp [digraphList]

/-- C4 witness: the one-character word "a" has exactly the two digraphs
`(Start, a)` and `(a, End)`, and its digraph count sits in the band `[2, 2]`. -/
theorem c4_digraph_count_witness :
    2 ≤ (digraphs_of ['a']).card ∧ (digraphs_of ['a']).card ≤ 2 ∧
    digraphs_of ['a']
      = {Digraph.mk Token.Start (Token.Char 'a'), Digraph.mk (Token.Char 'a') Token.End} := by
  have h := c4_digraph_count ['a']
  have hb := h.2.1 (by decide)
  exact ⟨hb.1, hb.2, h.2.2.2 'a' rfl⟩

/-- C6: a digraph of the query word that is not a key of the Feature Table is
skipped — prepending it to the iteration leaves the running sum unchanged — and
under the key-membership guard the `log_prob` lookup always returns `some`, so
the `expect` failure branch in `classify` is unreachable. -/
theorem c6_skip_unknown (m : Classifier) (d : Digraph) (language : Language)
    (ds : List Digraph) :
    (d ∈ m.keys → (log_prob m d language).isSome) ∧
    (d ∈ m.keys → log_prob m d language = some (logProbVal m d language)) ∧
    (d ∉ m.keys → sumVia m language (d :: ds) = sumVia m language ds) := by
  refine ⟨?_, ?_, ?_⟩
  · intro h
    rw [log_prob_of_mem m d language h]
    rfl
  · exact log_prob_of_mem m d language
  · intro h
    rw [sumVia_eq, sumVia_eq, List.map_cons, List.sum_cons, if_neg h, zero_add]

/-- C6 witness: in `exampleCls` the key (a, b) yields a `some` from `log_prob`,
and the non-key (x, y) contributes nothing to a running sum. -/
theorem c6_skip_unknown_witness :
    (log_prob exampleCls dAB Language.Crk).isSome ∧
    sumVia exampleCls Language.Crk [dXY] = sumVia exampleCls Language.Crk [] :=
  ⟨(c6_skip_unknown exampleCls dAB Language.Crk []).1 (by decide),
    (c6_skip_unknown exampleCls dXY Language.Crk []).2.2 (by decide)⟩

/-- C5 counterexample: `line_to_word` trims `!`, `?`, space and newline from the
END of the line only, so the LEADING space of " Puppy! " survives (lowercased
unchanged) and the result is " puppy", not "puppy" as the claim states. -/
theorem c5_normalize_examples_counterexample :
    line_to_word [' ', 'P', 'u', 'p', 'p', 'y', '!', ' ']
      ≠ ['p', 'u', 'p', 'p', 'y'] := by decide

/-- C5 amended: `line_to_word " Puppy! "` returns " puppy" — the trailing space
and "!" are stripped and every character, the untouched leading space included,
is lowercased — and `line_to_word "NÊHIYAWÊWIN"` returns "nehiyawewin", with the
circumflex vowels folded to their plain forms. -/
theorem c5_normalize_examples_amended :
    line_to_word [' ', 'P', 'u', 'p', 'p', 'y', '!', ' ']
      = [' ', 'p', 'u', 'p', 'p', 'y'] ∧
    line_to_word ['N', 'Ê', 'H', 'I', 'Y', 'A', 'W', 'Ê', 'W', 'I', 'N']
      = ['n', 'e', 'h', 'i', 'y', 'a', 'w', 'e', 'w', 'i', 'n'] := by decide

/-- C7: the renderer's check `assert!(c != '^' || c != '$')` is a tautology — no
character equals both `'^'` and `'$'` — so rendering the literal characters `'^'`
and `'$'` is NOT rejected: `tokenDisplay` returns them unchanged, silently
conflating them with the `Start` and `End` markers.  This contradicts the doc
comment on the Rust `impl` ("this will panic if the characters are either `'^'`
or `'$'`") and the spec; the intended condition is `c != '^' && c != '$'`. -/
theorem c7_display_assert_never_fires :
    tokenDisplay (Token.Char '^') = some '^' ∧
    tokenDisplay (Token.Char '$') = some '$' ∧
    ∀ c : Char, tokenDisplay (Token.Char c) = some c := by
  refine ⟨by decide, by decide, fun c => ?_⟩
  have hc : c ≠ '^' ∨ c ≠ '$' := by
    by_cases h : c = '^'
    · subst h
      right
      decide
    · exact Or.inl h
  simp [tokenDisplay, hc]

/-- C8: for a digraph that is a key of the Feature Table, both the smoothing
numerator `c + 1` and denominator `t + F` are integers at least `1` (so strictly
positive as reals — the logarithm is never taken of a non-positive number), and
whenever `c + 1 < t + F` the `log_prob` value is strictly negative. -/
theorem c8_log_prob_bounds (m : Classifier) (d : Digraph) (language : Language)
    (h : d ∈ m.keys) :
    1 ≤ (m.occ d).of language + 1 ∧
    1 ≤ (m.occ d).total + m.num_features ∧
    (0 : ℝ) < (((m.occ d).of language + 1 : ℕ) : ℝ) ∧
    (0 : ℝ) < (((m.occ d).total + m.num_features : ℕ) : ℝ) ∧
    log_prob m d language = some (logProbVal m d language) ∧
    ((m.occ d).of language + 1 < (m.occ d).total + m.num_features →
      logProbVal m d language < 0) := by
  have hF : 0 < m.num_features := Finset.card_pos.mpr ⟨d, h⟩
  refine ⟨by omega, by omega, by positivity, ?_, log_prob_of_mem m d language h, ?_⟩
  · have : 0 < (m.occ d).total + m.num_features := by omega
    exact_mod_cast this
  · intro hlt
    unfold logProbVal
    have hcast : (((m.occ d).of language + 1 : ℕ) : ℝ)
        < (((m.occ d).total + m.num_features : ℕ) : ℝ) := by exact_mod_cast hlt
    have hpos : (0 : ℝ) < (((m.occ d).of language + 1 : ℕ) : ℝ) := by positivity
    have := Real.log_lt_log hpos hcast
    linarith

/-- C8 witness: in `exampleCls` the key (a, b) has English count 0, total 2 and
feature count 1, so the numerator 1 is below the denominator 3 and the `log_prob`
value for English is strictly negative. -/
theorem c8_log_prob_bounds_witness :
    (exampleCls.occ dAB).of Language.Eng + 1 = 1 ∧
    (exampleCls.occ dAB).total + exampleCls.num_features = 3 ∧
    log_prob exampleCls dAB Language.Eng = some (logProbVal exampleCls dAB Language.Eng) ∧
    logProbVal exampleCls dAB Language.Eng < 0 := by
  have h := c8_log_prob_bounds exampleCls dAB Language.Eng (by decide)
  exact ⟨by decide, by decide, h.2.2.2.2.1, h.2.2.2.2.2 (by decide)⟩

/-- C9: classification over a trained-and-pruned Feature Table is deterministic —
the label does not depend on the enumeration order of the query word's digraph
set (the only iteration-order freedom a hash container introduces here): any
permutation of the enumeration yields the same label as `classify`. -/
theorem c9_classify_deterministic (crkLines engLines : List (List Char))
    (q : List Char) (ds : List Digraph)
    (h : ds.Perm (digraphs_of q).toList) :
    classifyVia
        (prune_features
          (count_digraphs (count_digraphs Classifier.new crkLines Language.Crk)
            engLines Language.Eng)) ds
      = classify
          (prune_features
            (count_digraphs (count_digraphs Classifier.new crkLines Language.Crk)
              engLines Language.Eng)) q := by
  unfold classify classifyVia
  rw [sumVia_perm _ Language.Crk h, sumVia_perm _ Language.Eng h]

/-- C9 witness: for the model trained on empty word lists and the query word "a",
iterating the digraph set in reversed enumeration order gives the same label as
`classify`. -/
theorem c9_classify_deterministic_witness :
    classifyVia
        (prune_features
          (count_digraphs (count_digraphs Classifier.new [] Language.Crk)
            [] Language.Eng)) (digraphs_of ['a']).toList.reverse
      = classify
          (prune_features
            (count_digraphs (count_digraphs Classifier.new [] Language.Crk)
              [] Language.Eng)) ['a'] :=
  c9_classify_deterministic [] [] ['a'] (digraphs_of ['a']).toList.reverse
    (List.reverse_perm _)

/-- C10: `line_to_word` keeps only the FIRST code point of a character's Unicode
lowercase expansion (`to_lowercase().nth(0)`): over a one-character line that is
not trimmed this is exactly the head of the expansion; for the dotted capital I
(`U+0130`), whose lowercase expansion is the two code points `i` and the
combining dot above `U+0307`, the second code point is silently dropped, leaving
"i" — strictly shorter than the full lowercase expansion. -/
theorem c10_lowercase_truncation :
    (∀ c : Char, c ∉ stripSet →
      line_to_word [c] = [foldCircumflex ((charToLowercase c).headD c)]) ∧
    charToLowercase 'İ' = ['i', '\u0307'] ∧
    line_to_word ['İ'] = ['i'] ∧
    (line_to_word ['İ']).length < (charToLowercase 'İ').length := by
  refine ⟨fun c hc => ?_, by decide, by decide, by decide⟩
  have htrim : trimRightMatches [c] = [c] := by
    unfold trimRightMatches
    simp [List.dropWhile, hc]
  unfold line_to_word
  rw [htrim]
  simp

/-- C10 witness: the untrimmed character `'İ'` instantiates the head-of-expansion
rule, agreeing with the concrete value "i". -/
theorem c10_lowercase_truncation_witness :
    line_to_word ['İ'] = [foldCircumflex ((charToLowercase 'İ').headD 'İ')] :=
  (c10_lowercase_truncation).1 'İ' (by decide)

end CrkOrEng
